import Mathlib

/-!
Verification of the BicingBot core (data.py) against its specification.

The development is a shallow embedding of the Python source:
stations are value records, the networkx graph is a pair of lists
(node list in insertion order, undirected edge list in insertion order,
each edge stored once with its stored distance attribute), and the
stateful methods become state-passing functions.  Fallible code returns
an Except value; where Python raises after having mutated the object,
the error value carries the state at the moment of the raise.

External library functions that the source calls as black boxes are
modelled as parameters:
the haversine distance (library haversine) is a parameter
dist : Node -> Node -> Rat; the trigonometric cell-size helper
(pure float mathematics on latitudes) is a parameter
sideLengths : Rat -> Rat -> Rat x Rat; the Dijkstra search and the
network-simplex min-cost-flow solver (library networkx) are function
parameters, with the behaviour a theorem relies on stated as an
explicit hypothesis.
-/

/-- A Bicing station record, as carried by StationWrapper: a row with
latitude, longitude, available bikes and available docks, plus an opaque
identity (Python objects are hashed by identity, so two stations with the
same data are still distinct nodes when their ids differ). -/
structure Node where
  idx : ℕ
  lat : ℚ
  lon : ℚ
  bikes : ℕ
  docks : ℕ
deriving DecidableEq, Repr

/-- The Python exceptions the embedded code can raise. -/
inductive Err where
  /-- ValueError from an explicit argument check. -/
  | invalidArg
  /-- ValueError raised by min() or max() on an empty sequence. -/
  | emptySeq
  /-- networkx NetworkXUnfeasible. -/
  | unfeasible
  /-- networkx NetworkXNoPath raised by the shortest-path search. -/
  | noPath
  /-- StopIteration escaping from next() on an exhausted iterator. -/
  | stopIteration
  /-- AssertionError from an assert statement. -/
  | assertFail
  /-- KeyError from an edge-attribute lookup. -/
  | keyError
deriving DecidableEq, Repr

/-- Decidable equality of Except values, so that closed runs of the
embedded functions can be checked by evaluation. -/
instance {ε α : Type} [DecidableEq ε] [DecidableEq α] : DecidableEq (Except ε α) := fun x y =>
  match x, y with
  | .ok a, .ok b => if h : a = b then .isTrue (by rw [h]) else .isFalse (by simp [h])
  | .error a, .error b => if h : a = b then .isTrue (by rw [h]) else .isFalse (by simp [h])
  | .ok _, .error _ => .isFalse (by simp)
  | .error _, .ok _ => .isFalse (by simp)

/-- One stored undirected edge: endpoints in stored orientation and the
value of its distance attribute. -/
abbrev Edge := Node × Node × ℚ

/-- The BicingGraph state: node list (insertion order), undirected edge
list (each edge stored once, insertion order), and the _distance
attribute. -/
structure Graph where
  nodes : List Node
  edges : List Edge
  distAttr : ℚ
deriving DecidableEq, Repr

/-- Whether the undirected edge u-v is present (either stored
orientation), as networkx add_edge checks before inserting. -/
def hasEdgeB (es : List Edge) (u v : Node) : Bool :=
  es.any (fun e => (e.1 = u ∧ e.2.1 = v) ∨ (e.1 = v ∧ e.2.1 = u))

/-- Stored distance attribute of undirected edge u-v, if present. -/
def edgeLookup (es : List Edge) (u v : Node) : Option ℚ :=
  (es.find? (fun e => (e.1 = u ∧ e.2.1 = v) ∨ (e.1 = v ∧ e.2.1 = u))).map (·.2.2)

/-- Edge-list part of networkx add_edge: update the distance attribute in
place when the undirected edge exists, otherwise append it. -/
def addEdgeE (es : List Edge) (u v : Node) (w : ℚ) : List Edge :=
  if hasEdgeB es u v then
    es.map (fun e => if (e.1 = u ∧ e.2.1 = v) ∨ (e.1 = v ∧ e.2.1 = u)
                     then (e.1, e.2.1, w) else e)
  else es ++ [(u, v, w)]

/-- networkx add_node: append if absent, otherwise no change. -/
def addNode (g : Graph) (v : Node) : Graph :=
  if v ∈ g.nodes then g else { g with nodes := g.nodes ++ [v] }

/-- networkx add_edge on the graph: silently adds missing endpoints, then
inserts or updates the undirected edge. -/
def addEdge (g : Graph) (u v : Node) (w : ℚ) : Graph :=
  { (addNode (addNode g u) v) with edges := addEdgeE g.edges u v w }

/-- networkx remove_node: drops the node and every incident edge. -/
def removeNode (g : Graph) (v : Node) : Graph :=
  { g with nodes := g.nodes.filter (fun x => x ≠ v),
           edges := g.edges.filter (fun e => e.1 ≠ v ∧ e.2.1 ≠ v) }

/-- Python int() applied to a rational: truncation toward zero. -/
def pyInt (q : ℚ) : ℤ :=
  if 0 ≤ q then ⌊q⌋ else -⌊-q⌋

/-- ramp from data.py: max of x and 0 (ReLU). -/
def ramp (x : ℤ) : ℤ :=
  if x > 0 then x else 0

/-- Python a or b on integers: a when a is non-zero (truthy), else b. -/
def pyOr (a b : ℤ) : ℤ :=
  if a ≠ 0 then a else b

/-- Python round(q, 3): round half to even at three decimal places. -/
def roundHalfEven (q : ℚ) : ℤ :=
  if q - ⌊q⌋ < 1/2 then ⌊q⌋
  else if q - ⌊q⌋ > 1/2 then ⌊q⌋ + 1
  else if 2 ∣ ⌊q⌋ then ⌊q⌋ else ⌊q⌋ + 1

/-- Python round(q, 3) as a rational. -/
def round3 (q : ℚ) : ℚ :=
  (roundHalfEven (1000 * q) : ℚ) / 1000

/-- _FLOAT_TO_INT_FACTOR from data.py. -/
def floatToIntFactor : ℚ := 1000

/-- Per-station body of _write_bike_demands: the feasibility check, the
demand formula demand = bike_deficit or -dock_deficit, and the two
assert statements (modelled as a checked error path). -/
def stationDemand (minB minF : ℤ) (n : Node) : Except Err ℤ :=
  let bikes : ℤ := n.bikes
  let freeDocks : ℤ := n.docks
  if bikes + freeDocks < minB + minF then .error .unfeasible
  else
    let demand := pyOr (ramp (minB - bikes)) (-(ramp (minF - freeDocks)))
    if minB ≤ bikes + demand then
      if minF ≤ freeDocks - demand then .ok (demand)
      else .error .assertFail
    else .error .assertFail

/-- The demand-writing loop of _write_bike_demands: one pass over the
nodes in order, stopping at the first raised exception. -/
def writeDemandsLoop (minB minF : ℤ) : List Node → Except Err (List (Node × ℤ))
  | [] => .ok []
  | n :: rest =>
    match stationDemand minB minF n with
    | .error e => .error e
    | .ok dem =>
      match writeDemandsLoop minB minF rest with
      | .error e => .error e
      | .ok l => .ok ((n, dem) :: l)

/-- First while-loop of _distribute_excess_demand (total_demand < 0):
absorb surplus bikes into free docks, walking the shared node iterator.
Returns the updated consumed prefix, the final total and the untouched
remainder of the iterator; an exhausted iterator is the StopIteration
escape of next(). -/
def absorbNeg (minF : ℤ) (total : ℤ) :
    List (Node × ℤ) → Except Err (List (Node × ℤ) × ℤ × List (Node × ℤ))
  | [] => if 0 ≤ total then .ok ([], total, []) else .error .stopIteration
  | (n, dem) :: rest =>
    if 0 ≤ total then .ok ([], total, (n, dem) :: rest)
    else
      let s := min ((n.docks : ℤ) - dem - minF) (-total)
      match absorbNeg minF (total + s) rest with
      | .error e => .error e
      | .ok (p, t, r) => .ok ((n, dem + s) :: p, t, r)

/-- Second while-loop of _distribute_excess_demand (total_demand > 0):
find surplus bikes to satisfy outstanding demand, continuing on the same
iterator. -/
def absorbPos (minB : ℤ) (total : ℤ) :
    List (Node × ℤ) → Except Err (List (Node × ℤ) × ℤ × List (Node × ℤ))
  | [] => if total ≤ 0 then .ok ([], total, []) else .error .stopIteration
  | (n, dem) :: rest =>
    if total ≤ 0 then .ok ([], total, (n, dem) :: rest)
    else
      let s := min ((n.bikes : ℤ) + dem - minB) total
      match absorbPos minB (total - s) rest with
      | .error e => .error e
      | .ok (p, t, r) => .ok ((n, dem - s) :: p, t, r)

/-- _distribute_excess_demand: both while-loops share one iterator over
the node/attribute pairs, so the second loop resumes where the first
stopped. -/
def distributeExcess (minB minF : ℤ) (total : ℤ) (demands : List (Node × ℤ)) :
    Except Err (List (Node × ℤ)) :=
  match absorbNeg minF total demands with
  | .error e => .error e
  | .ok (p1, t1, r1) =>
    match absorbPos minB t1 r1 with
    | .error e => .error e
    | .ok (p2, _, r2) => .ok (p1 ++ (p2 ++ r2))

/-- _write_bike_demands: write a signed demand on every node, accumulate
the total, then balance the excess. -/
def writeBikeDemands (minB minF : ℤ) (nodes : List Node) :
    Except Err (List (Node × ℤ)) :=
  match writeDemandsLoop minB minF nodes with
  | .error e => .error e
  | .ok demands => distributeExcess minB minF ((demands.map (·.2)).sum) demands

/-- _write_edge_costs: overwrite every edge's distance attribute with
int(_FLOAT_TO_INT_FACTOR * distance(u, v)). -/
def writeEdgeCosts (dist : Node → Node → ℚ) (g : Graph) : Graph :=
  { g with edges := g.edges.map (fun e => (e.1, e.2.1, (pyInt (floatToIntFactor * dist e.1 e.2.1) : ℚ))) }

/-- to_directed(as_view=True): every stored undirected edge yields the
two directed arcs with the same distance attribute. -/
def toDirected (g : Graph) : List Edge :=
  (g.edges.map (fun e => [(e.1, e.2.1, e.2.2), (e.2.1, e.1, e.2.2)])).flatten

/-- A directed flow assignment: networkx flow dicts flattened to ordered
(tail, head, flow) triples in dict iteration order. -/
abbrev FlowDict := List (Node × Node × ℤ)

/-- The all-zero flow on a directed arc list. -/
def zeroFlow (arcs : List Edge) : FlowDict :=
  arcs.map (fun e => (e.1, e.2.1, (0 : ℤ)))

/-- Type of the external min-cost-flow solver (nx.network_simplex):
from the directed arc list and the node demands to (flowCost, flowDict).
With integer demands and integer arc costs the cost is an integer. -/
abbrev Solver := List Edge → List (Node × ℤ) → ℤ × FlowDict

/-- BicingGraph.distribute: validate the constraints, write the bike
demands and the integer edge costs, run the solver on the directed view,
and return the pair (rounded rescaled cost, flow dict).  The source
returns exactly this pair; the Python isinstance int check is carried by
the ℤ argument type. -/
def distribute (solver : Solver) (dist : Node → Node → ℚ) (g : Graph)
    (minB minF : ℤ) : Except Err (ℚ × FlowDict) :=
  if minB < 0 ∨ minF < 0 then .error .invalidArg
  else
    match writeBikeDemands minB minF g.nodes with
    | .error e => .error e
    | .ok demands =>
      let g' := writeEdgeCosts dist g
      let r := solver (toDirected g') demands
      .ok (round3 ((r.1 : ℚ) / floatToIntFactor), r.2)

/-- The FlowEdge named tuple of data.py. -/
structure FlowEdge where
  tail : Node
  head : Node
  flow : ℤ
  dist : ℚ
deriving DecidableEq, Repr

/-- The generator inside max_cost_edge: for each non-zero flow entry,
look the edge up in the graph (KeyError when absent) and divide the
stored cost back by _FLOAT_TO_INT_FACTOR. -/
def flowEdgeEntries (g : Graph) : FlowDict → Except Err (List FlowEdge)
  | [] => .ok []
  | (n1, n2, f) :: rest =>
    if f ≠ 0 then
      match edgeLookup g.edges n1 n2 with
      | none => .error .keyError
      | some w =>
        match flowEdgeEntries g rest with
        | .error e => .error e
        | .ok l => .ok (⟨n1, n2, f, w / floatToIntFactor⟩ :: l)
    else flowEdgeEntries g rest

/-- BicingGraph.max_cost_edge: Python max over the generator, keyed by
flow * dist; max on an empty sequence raises ValueError, and among equal
keys the first maximal element wins. -/
def maxCostEdge (g : Graph) (flow : FlowDict) : Except Err FlowEdge :=
  match flowEdgeEntries g flow with
  | .error e => .error e
  | .ok [] => .error .emptySeq
  | .ok (e :: rest) =>
    .ok (rest.foldl (fun best x => if x.flow * x.dist > best.flow * best.dist then x else best) e)

/-- The nine cell offsets yielded by _DistanceGrid.neighbours, in the
order of itertools.product((0, 1, -1), repeat=2). -/
def gridOffsets : List (ℤ × ℤ) :=
  [(0, 0), (0, 1), (0, -1), (1, 0), (1, 1), (1, -1), (-1, 0), (-1, 1), (-1, -1)]

/-- grid.setdefault(key, set()).add(node): insert into an existing cell
(keys keep their first-insertion position, as Python dicts do) or append
a fresh singleton cell at the end. -/
def gridInsert (grid : List ((ℤ × ℤ) × List Node)) (key : ℤ × ℤ) (n : Node) :
    List ((ℤ × ℤ) × List Node) :=
  match grid with
  | [] => [(key, [n])]
  | (k, cell) :: rest =>
    if k = key then (k, cell ++ [n]) :: rest else (k, cell) :: gridInsert rest key n

/-- The cell-assignment loop of _DistanceGrid.__init__: each node goes in
the cell indexed by the truncated quotient of its offset from the
bottom-left corner by the degree side lengths.  (Graph nodes are
pairwise-distinct objects, matching the set semantics of a cell.) -/
def buildGrid (nodes : List Node) (minLat minLon dlat dlon : ℚ) :
    List ((ℤ × ℤ) × List Node) :=
  nodes.foldl
    (fun grid n =>
      gridInsert grid (pyInt ((n.lat - minLat) / dlat), pyInt ((n.lon - minLon) / dlon)) n)
    []

/-- grid.get(index, ()): the cell at the index, else the empty cell. -/
def gridGet (grid : List ((ℤ × ℤ) × List Node)) (key : ℤ × ℤ) : List Node :=
  ((grid.find? (fun kc => kc.1 = key)).map (·.2)).getD []

/-- cell.clear(): the cell keeps its key but becomes empty. -/
def gridClear (grid : List ((ℤ × ℤ) × List Node)) (key : ℤ × ℤ) :
    List ((ℤ × ℤ) × List Node) :=
  grid.map (fun kc => if kc.1 = key then (kc.1, ([] : List Node)) else kc)

/-- itertools.combinations(cell, r=2) in generation order. -/
def combinations2 : List Node → List (Node × Node)
  | [] => []
  | a :: rest => rest.map (fun b => (a, b)) ++ combinations2 rest

/-- itertools.product(cell, neighbour) in generation order. -/
def productPairs (c1 c2 : List Node) : List (Node × Node) :=
  (c1.map (fun a => c2.map (fun b => (a, b)))).flatten

/-- Inner pair loop of _add_edges_in_grid: add an edge with its distance
as weight whenever 0 < distance(a, b) <= max_distance. -/
def addPairs (dist : Node → Node → ℚ) (maxD : ℚ) (g : Graph)
    (pairs : List (Node × Node)) : Graph :=
  pairs.foldl
    (fun gacc p =>
      let dd := dist p.1 p.2
      if 0 < dd ∧ dd ≤ maxD then addEdge gacc p.1 p.2 dd else gacc)
    g

/-- Per-cell body of _add_edges_in_grid: enumerate the 9 neighbours in
offset order; the offset (0, 0) yields the cell itself (the Python
identity test cell is neighbour), giving combinations, every other
offset gives the Cartesian product with the (possibly already cleared or
missing) neighbour cell. -/
def processCell (dist : Node → Node → ℚ) (maxD : ℚ)
    (grid : List ((ℤ × ℤ) × List Node)) (idx : ℤ × ℤ) (g : Graph) : Graph :=
  let cell := gridGet grid idx
  gridOffsets.foldl
    (fun gacc off =>
      let pairs :=
        if off = (0, 0) then combinations2 cell
        else productPairs cell (gridGet grid (idx.1 + off.1, idx.2 + off.2))
      addPairs dist maxD gacc pairs)
    g

/-- _add_edges_in_grid: iterate the grid cells in dict (insertion) order;
after a cell is processed it is cleared in place, so later cells no
longer see it as a neighbour and each unordered pair of nearby cells is
evaluated exactly once. -/
def addEdgesInGrid (dist : Node → Node → ℚ) (maxD : ℚ) :
    List (ℤ × ℤ) → List ((ℤ × ℤ) × List Node) → Graph → Graph
  | [], _, g => g
  | idx :: ks, grid, g =>
    addEdgesInGrid dist maxD ks (gridClear grid idx) (processCell dist maxD grid idx g)

/-- BicingGraph.construct_graph.  A negative distance raises ValueError
before any mutation; then all edges are cleared unconditionally; for a
positive distance the grid is built (min() over the node latitudes
raises ValueError on a node-less graph, with the edges already cleared)
and edges are added cell by cell; finally the _distance attribute is
set.  The error value carries the state at the moment of the raise. -/
def construct_graph (sideLengths : ℚ → ℚ → ℚ × ℚ) (dist : Node → Node → ℚ)
    (g : Graph) (d : ℚ) : Except (Err × Graph) Graph :=
  if d < 0 then .error (.invalidArg, g)
  else
    let g1 : Graph := { g with edges := [] }
    if 0 < d then
      match g1.nodes with
      | [] => .error (.emptySeq, g1)
      | n0 :: rest =>
        let minLat := rest.foldl (fun m x => min m x.lat) n0.lat
        let minLon := rest.foldl (fun m x => min m x.lon) n0.lon
        let dl := sideLengths minLat d
        let grid := buildGrid g1.nodes minLat minLon dl.1 dl.2
        let g2 := addEdgesInGrid dist d (grid.map (·.1)) grid g1
        .ok { g2 with distAttr := d }
    else
      .ok { g1 with distAttr := d }

/-- The graph state after a call, whether it returned or raised (the
error branch carries the state at the raise). -/
def postState (r : Except (Err × Graph) Graph) : Graph :=
  match r with
  | .ok g => g
  | .error e => e.2

/-- RouteContextManager.__enter__: add the two virtual endpoint nodes,
the direct walking edge between them, and a walking-scaled edge from
each of them to every node of the augmented graph (the loop over g.nodes
runs after the virtual nodes were added, so it also revisits them). -/
def routeSetupEnter (dist : Node → Node → ℚ) (g : Graph)
    (origin destination : Node) (walkFactor : ℚ) : Graph :=
  let g1 := addNode (addNode g origin) destination
  let g2 := addEdge g1 origin destination (dist origin destination * walkFactor)
  g2.nodes.foldl
    (fun gacc node =>
      addEdge (addEdge gacc origin node (dist origin node * walkFactor))
        destination node (dist destination node * walkFactor))
    g2

/-- RouteContextManager.__exit__: remove both virtual nodes (and with
them every incident edge). -/
def routeSetupExit (g : Graph) (origin destination : Node) : Graph :=
  removeNode (removeNode g origin) destination

/-- Type of the external shortest-path search
(nx.single_source_dijkstra with weight distance): either the pair
(total distance, node path) or a raised exception. -/
abbrev Search := Graph → Node → Node → Except Err (ℚ × List Node)

/-- The path graph built after the search: BicingGraph(path) followed by
add_edges_from over consecutive path pairs. -/
structure PathGraph where
  nodes : List Node
  edges : List (Node × Node)
deriving DecidableEq, Repr

/-- BicingGraph.route: wrap the search in the setup/clean-up context
manager (the clean-up runs on the exceptional exit as well, and the
exception propagates), then build the path graph and rescale the total
weight into seconds.  The returned pair is (graph state after the call,
returned value or raised exception). -/
def route (search : Search) (dist : Node → Node → ℚ) (g : Graph)
    (origin destination : Node) (walkingSpeed bikingSpeed : ℚ) :
    Graph × Except Err (PathGraph × ℚ) :=
  let g1 := routeSetupEnter dist g origin destination (bikingSpeed / walkingSpeed)
  match search g1 origin destination with
  | .error e => (routeSetupExit g1 origin destination, .error e)
  | .ok (totalDistance, path) =>
    (routeSetupExit g1 origin destination,
     .ok (⟨path, path.zip path.tail⟩, totalDistance / bikingSpeed))

/-- Concrete rational stand-in for the haversine distance, used to
instantiate the dist parameter in closed statements: symmetric, zero on
coincident coordinates, and matching the spec scale at the test sites
(0.001 degrees of longitude at the equator is about 111.194 m). -/
def distQ (a b : Node) : ℚ :=
  111194 * (|a.lat - b.lat| + |a.lon - b.lon|)

/-- Concrete instantiation of the degree-side-length helper for closed
statements: the degree increment whose planar extent is d meters at the
scale of distQ. -/
def sideLengthsW (_lat d : ℚ) : ℚ × ℚ :=
  (d / 111194, d / 111194)

/-- Instantiation of the search parameter for closed statements: models
nx.single_source_dijkstra on instances where the direct
origin-destination edge is the unique simple route, which is the case on
the augmented node-less graph. -/
def searchDirect : Search := fun g o dest =>
  match edgeLookup g.edges o dest with
  | some w => .ok (w, [o, dest])
  | none => .error .noPath

/-- Instantiation of the solver parameter for closed statements: the
solution network simplex returns on an all-zero demand vector (its basic
solutions carry zero flow on every arc when all node balances are
zero). -/
def solverStub : Solver := fun arcs _ => (0, zeroFlow arcs)

/-- First test station of the specification scenario: (0, 0, 5, 5). -/
def st1 : Node := ⟨1, 0, 0, 5, 5⟩

/-- Second test station of the specification scenario: (0, 0.001, 2, 8). -/
def st2 : Node := ⟨2, 0, 1/1000, 2, 8⟩

/-- Third test station of the specification scenario: (0, 0.002, 9, 1). -/
def st3 : Node := ⟨3, 0, 2/1000, 9, 1⟩

/-- The three-station graph of the specification scenario, before any
construct_graph call. -/
def gW : Graph := ⟨[st1, st2, st3], [], 0⟩

/-- A two-station graph whose single edge carries its distQ distance
(111.194 m), as construct_graph would store it. -/
def g2W : Graph := ⟨[st1, st2], [(st1, st2, 55597/500)], 200⟩

/-- A virtual route endpoint (origin), distinct from every station. -/
def oW : Node := ⟨100, 10, 10, 0, 0⟩

/-- A virtual route endpoint (destination), distinct from every station. -/
def dW : Node := ⟨101, 20, 20, 0, 0⟩

/-- The node-less, edge-less graph. -/
def emptyG : Graph := ⟨[], [], 0⟩

/-- The balanced demand list distribute(3, 3) computes on the
specification scenario. -/
def dmsW : List (Node × ℤ) := [(st1, 1), (st2, 1), (st3, -2)]

/-- The per-station constraint distribute must respect: after applying
the signed demand, the station still has at least minB bikes and at
least minF free docks. -/
def DemandOk (minB minF : ℤ) (q : Node × ℤ) : Prop :=
  minB ≤ (q.1.bikes : ℤ) + q.2 ∧ minF ≤ (q.1.docks : ℤ) - q.2

/-- Shape of every edge construct_graph creates: its stored weight is
the exact distance of its endpoints, strictly positive and at most the
threshold. -/
def EdgeOk (dist : Node → Node → ℚ) (maxD : ℚ) (e : Edge) : Prop :=
  e.2.2 = dist e.1 e.2.1 ∧ 0 < e.2.2 ∧ e.2.2 ≤ maxD

/-- Incidence to one of the two virtual route endpoints. -/
def EdgeIncident (o d : Node) (e : Edge) : Prop :=
  e.1 = o ∨ e.2.1 = o ∨ e.1 = d ∨ e.2.1 = d

/-- Well-formedness of a networkx graph state: every stored edge joins
stored nodes (networkx cannot store an edge without its endpoints). -/
def EdgesValid (g : Graph) : Prop :=
  ∀ e ∈ g.edges, e.1 ∈ g.nodes ∧ e.2.1 ∈ g.nodes

/-- Claim C8: a negative threshold makes construct_graph report an
invalid-argument condition immediately, with the graph state at the
raise (edge set and stored distance) exactly as before the call. -/
theorem construct_graph_rejects_negative
    (sideLengths : ℚ → ℚ → ℚ × ℚ) (dist : Node → Node → ℚ) (g : Graph) (d : ℚ)
    (hd : d < 0) :
    construct_graph sideLengths dist g d = .error (.invalidArg, g) := by
  simp [construct_graph, hd]

/-- Claim C8, witness: the check fires at the concrete threshold -1 on
the concrete three-station graph, leaving it untouched. -/
theorem construct_graph_rejects_negative_witness :
    construct_graph sideLengthsW distQ gW (-1) = .error (.invalidArg, gW) :=
  construct_graph_rejects_negative sideLengthsW distQ gW (-1) (by norm_num)

/-- On an all-zero flow dict the max_cost_edge generator yields
nothing. -/
theorem flowEdgeEntries_all_zero (g : Graph) :
    ∀ flow : FlowDict, (∀ e ∈ flow, e.2.2 = 0) → flowEdgeEntries g flow = .ok [] := by
  intro flow
  induction flow with
  | nil => intro _; rfl
  | cons e rest ih =>
    intro h
    obtain ⟨n1, n2, f⟩ := e
    have hf : f = 0 := h (n1, n2, f) (List.mem_cons_self _ _)
    have hr := ih (fun e he => h e (List.mem_cons_of_mem _ he))
    simp [flowEdgeEntries, hf, hr]

/-- Claim C10: when every flow value is zero, max_cost_edge raises the
max-of-empty-sequence error rather than returning a FlowEdge, and it can
return a FlowEdge only when some flow value is non-zero. -/
theorem max_cost_edge_zero_flow (g : Graph) (flow : FlowDict) :
    ((∀ e ∈ flow, e.2.2 = 0) → maxCostEdge g flow = .error .emptySeq) ∧
    (∀ fe : FlowEdge, maxCostEdge g flow = .ok fe → ∃ e ∈ flow, e.2.2 ≠ 0) := by
  constructor
  · intro h
    simp [maxCostEdge, flowEdgeEntries_all_zero g flow h]
  · intro fe hok
    by_contra hnone
    push_neg at hnone
    have hz : ∀ e ∈ flow, e.2.2 = 0 := hnone
    simp [maxCostEdge, flowEdgeEntries_all_zero g flow hz] at hok

/-- Claim C10, witness: on a concrete all-zero flow dict over the
two-station graph, max_cost_edge raises. -/
theorem max_cost_edge_zero_flow_witness :
    maxCostEdge g2W [(st1, st2, 0), (st2, st1, 0)] = .error .emptySeq :=
  (max_cost_edge_zero_flow g2W [(st1, st2, 0), (st2, st1, 0)]).1 (by decide)


/-- A demand accepted by the per-station step satisfies the station's
own constraints (the two assert statements of the source). -/
theorem stationDemand_ok (minB minF : ℤ) (n : Node) (dem : ℤ)
    (h : stationDemand minB minF n = .ok dem) : DemandOk minB minF (n, dem) := by
  unfold stationDemand at h
  dsimp only at h
  split at h
  · cases h
  · split at h
    · split at h
      · rename_i h1 h2
        cases h
        exact ⟨h1, h2⟩
      · cases h
    · cases h

/-- Every pair produced by the demand-writing loop satisfies its
station's constraints. -/
theorem writeDemandsLoop_ok (minB minF : ℤ) :
    ∀ (nodes : List Node) (l : List (Node × ℤ)),
      writeDemandsLoop minB minF nodes = .ok l → ∀ q ∈ l, DemandOk minB minF q := by
  intro nodes
  induction nodes with
  | nil =>
    intro l h q hq
    unfold writeDemandsLoop at h
    cases h
    simp at hq
  | cons n rest ih =>
    intro l h q hq
    unfold writeDemandsLoop at h
    split at h
    · cases h
    · rename_i dem hsd
      split at h
      · cases h
      · rename_i l' hrest
        cases h
        rcases List.mem_cons.mp hq with hq | hq
        · subst hq; exact stationDemand_ok minB minF n dem hsd
        · exact ih l' hrest q hq

/-- The first absorption loop ends with the total clamped up to zero:
each step adds at most the outstanding deficit. -/
theorem absorbNeg_total (minF : ℤ) :
    ∀ (l : List (Node × ℤ)) (total : ℤ) (p : List (Node × ℤ)) (t : ℤ)
      (r : List (Node × ℤ)),
      absorbNeg minF total l = .ok (p, t, r) → t = max total 0 := by
  intro l
  induction l with
  | nil =>
    intro total p t r h
    unfold absorbNeg at h
    split at h
    · cases h; omega
    · cases h
  | cons q rest ih =>
    intro total p t r h
    obtain ⟨n, dem⟩ := q
    unfold absorbNeg at h
    split at h
    · cases h; omega
    · rename_i hneg
      dsimp only at h
      split at h
      · cases h
      · rename_i p' t' r' hrec
        cases h
        have := ih _ _ _ _ hrec
        omega

/-- The second absorption loop ends with the total clamped down to
zero. -/
theorem absorbPos_total (minB : ℤ) :
    ∀ (l : List (Node × ℤ)) (total : ℤ) (p : List (Node × ℤ)) (t : ℤ)
      (r : List (Node × ℤ)),
      absorbPos minB total l = .ok (p, t, r) → t = min total 0 := by
  intro l
  induction l with
  | nil =>
    intro total p t r h
    unfold absorbPos at h
    split at h
    · cases h; omega
    · cases h
  | cons q rest ih =>
    intro total p t r h
    obtain ⟨n, dem⟩ := q
    unfold absorbPos at h
    split at h
    · cases h; omega
    · rename_i hpos
      dsimp only at h
      split at h
      · cases h
      · rename_i p' t' r' hrec
        cases h
        have := ih _ _ _ _ hrec
        omega

/-- Each step of the first loop changes the running total and the demand
sum by the same amount, so their difference is invariant. -/
theorem absorbNeg_sum (minF : ℤ) :
    ∀ (l : List (Node × ℤ)) (total : ℤ) (p : List (Node × ℤ)) (t : ℤ)
      (r : List (Node × ℤ)),
      absorbNeg minF total l = .ok (p, t, r) →
      (p.map (·.2)).sum + (r.map (·.2)).sum = (l.map (·.2)).sum + (t - total) := by
  intro l
  induction l with
  | nil =>
    intro total p t r h
    unfold absorbNeg at h
    split at h
    · cases h; simp
    · cases h
  | cons q rest ih =>
    intro total p t r h
    obtain ⟨n, dem⟩ := q
    unfold absorbNeg at h
    split at h
    · cases h; simp
    · rename_i hneg
      dsimp only at h
      split at h
      · cases h
      · rename_i p' t' r' hrec
        cases h
        have := ih _ _ _ _ hrec
        simp only [List.map_cons, List.sum_cons]
        omega

/-- Each step of the second loop changes the running total and the
demand sum by the same amount. -/
theorem absorbPos_sum (minB : ℤ) :
    ∀ (l : List (Node × ℤ)) (total : ℤ) (p : List (Node × ℤ)) (t : ℤ)
      (r : List (Node × ℤ)),
      absorbPos minB total l = .ok (p, t, r) →
      (p.map (·.2)).sum + (r.map (·.2)).sum = (l.map (·.2)).sum + (t - total) := by
  intro l
  induction l with
  | nil =>
    intro total p t r h
    unfold absorbPos at h
    split at h
    · cases h; simp
    · cases h
  | cons q rest ih =>
    intro total p t r h
    obtain ⟨n, dem⟩ := q
    unfold absorbPos at h
    split at h
    · cases h; simp
    · rename_i hpos
      dsimp only at h
      split at h
      · cases h
      · rename_i p' t' r' hrec
        cases h
        have := ih _ _ _ _ hrec
        simp only [List.map_cons, List.sum_cons]
        omega

/-- The first loop only moves a demand up by available dock slack, so
every station's constraints are preserved. -/
theorem absorbNeg_inv (minB minF : ℤ) :
    ∀ (l : List (Node × ℤ)) (total : ℤ) (p : List (Node × ℤ)) (t : ℤ)
      (r : List (Node × ℤ)),
      absorbNeg minF total l = .ok (p, t, r) →
      (∀ q ∈ l, DemandOk minB minF q) →
      (∀ q ∈ p, DemandOk minB minF q) ∧ (∀ q ∈ r, DemandOk minB minF q) := by
  intro l
  induction l with
  | nil =>
    intro total p t r h hl
    unfold absorbNeg at h
    split at h
    · cases h; simp
    · cases h
  | cons q0 rest ih =>
    intro total p t r h hl
    obtain ⟨n, dem⟩ := q0
    unfold absorbNeg at h
    split at h
    · cases h
      exact ⟨by simp, hl⟩
    · rename_i hneg
      dsimp only at h
      split at h
      · cases h
      · rename_i p' t' r' hrec
        cases h
        have hhead := hl (n, dem) (List.mem_cons_self _ _)
        have hrest := ih _ _ _ _ hrec (fun q hq => hl q (List.mem_cons_of_mem _ hq))
        refine ⟨?_, hrest.2⟩
        intro q hq
        rcases List.mem_cons.mp hq with hq | hq
        · subst hq
          obtain ⟨h1, h2⟩ := hhead
          simp only at h1 h2
          exact ⟨by simp only; omega, by simp only; omega⟩
        · exact hrest.1 q hq

/-- The second loop only moves a demand down by available bike slack, so
every station's constraints are preserved. -/
theorem absorbPos_inv (minB minF : ℤ) :
    ∀ (l : List (Node × ℤ)) (total : ℤ) (p : List (Node × ℤ)) (t : ℤ)
      (r : List (Node × ℤ)),
      absorbPos minB total l = .ok (p, t, r) →
      (∀ q ∈ l, DemandOk minB minF q) →
      (∀ q ∈ p, DemandOk minB minF q) ∧ (∀ q ∈ r, DemandOk minB minF q) := by
  intro l
  induction l with
  | nil =>
    intro total p t r h hl
    unfold absorbPos at h
    split at h
    · cases h; simp
    · cases h
  | cons q0 rest ih =>
    intro total p t r h hl
    obtain ⟨n, dem⟩ := q0
    unfold absorbPos at h
    split at h
    · cases h
      exact ⟨by simp, hl⟩
    · rename_i hpos
      dsimp only at h
      split at h
      · cases h
      · rename_i p' t' r' hrec
        cases h
        have hhead := hl (n, dem) (List.mem_cons_self _ _)
        have hrest := ih _ _ _ _ hrec (fun q hq => hl q (List.mem_cons_of_mem _ hq))
        refine ⟨?_, hrest.2⟩
        intro q hq
        rcases List.mem_cons.mp hq with hq | hq
        · subst hq
          obtain ⟨h1, h2⟩ := hhead
          simp only at h1 h2
          exact ⟨by simp only; omega, by simp only; omega⟩
        · exact hrest.1 q hq

/-- Claim C5: whenever distribute reaches the min-cost-flow solver, the
signed demands it passes sum to exactly zero, and the residual-imbalance
absorption never violates any station's own constraints: for every
station, bikes + demand is at least minBikes and freeDocks - demand is
at least minFreeDocks. -/
theorem write_bike_demands_balanced (minB minF : ℤ) (nodes : List Node)
    (demands : List (Node × ℤ))
    (h : writeBikeDemands minB minF nodes = .ok demands) :
    (demands.map (·.2)).sum = 0 ∧ ∀ q ∈ demands, DemandOk minB minF q := by
  unfold writeBikeDemands at h
  split at h
  · cases h
  · rename_i init hloop
    unfold distributeExcess at h
    split at h
    · cases h
    · rename_i p1 t1 r1 hneg
      split at h
      · cases h
      · rename_i p2 t2 r2 hpos
        cases h
        have ht1 : t1 = max ((init.map (·.2)).sum) 0 := absorbNeg_total minF _ _ _ _ _ hneg
        have ht2 : t2 = min t1 0 := absorbPos_total minB _ _ _ _ _ hpos
        have hs1 := absorbNeg_sum minF _ _ _ _ _ hneg
        have hs2 := absorbPos_sum minB _ _ _ _ _ hpos
        have hinv0 := writeDemandsLoop_ok minB minF nodes init hloop
        have hinv1 := absorbNeg_inv minB minF _ _ _ _ _ hneg hinv0
        have hinv2 := absorbPos_inv minB minF _ _ _ _ _ hpos hinv1.2
        constructor
        · simp only [List.map_append, List.sum_append]
          omega
        · intro q hq
          rcases List.mem_append.mp hq with hq | hq
          · exact hinv1.1 q hq
          · rcases List.mem_append.mp hq with hq | hq
            · exact hinv2.1 q hq
            · exact hinv2.2 q hq

/-- Claim C5, witness: on the specification's three-station scenario
with minBikes = minFreeDocks = 3, the computed demands are 1, 1, -2:
they sum to zero and respect every station's constraints. -/
theorem write_bike_demands_balanced_witness :
    (dmsW.map (·.2)).sum = 0 ∧ ∀ q ∈ dmsW, DemandOk 3 3 q :=
  write_bike_demands_balanced 3 3 [st1, st2, st3] dmsW (by rfl)

/-- With both constraints zero, the per-station demand is zero: both
deficits vanish and the assertions hold. -/
theorem stationDemand_zero (n : Node) : stationDemand 0 0 n = .ok 0 := by
  unfold stationDemand
  dsimp only
  rw [if_neg (by omega)]
  have hr1 : ramp (0 - (n.bikes : ℤ)) = 0 := by
    unfold ramp; rw [if_neg (by omega)]
  have hr2 : ramp (0 - (n.docks : ℤ)) = 0 := by
    unfold ramp; rw [if_neg (by omega)]
  rw [hr1, hr2]
  have hor : pyOr 0 (-(0 : ℤ)) = 0 := by
    unfold pyOr; simp
  rw [hor, if_pos (by omega), if_pos (by omega)]

/-- With both constraints zero, the demand-writing loop writes zero on
every node. -/
theorem writeDemandsLoop_zero :
    ∀ nodes : List Node,
      writeDemandsLoop 0 0 nodes = .ok (nodes.map (fun n => (n, (0 : ℤ)))) := by
  intro nodes
  induction nodes with
  | nil => rfl
  | cons n rest ih =>
    unfold writeDemandsLoop
    rw [stationDemand_zero, ih]
    rfl

/-- The first absorption loop is a no-op when the total is already
zero. -/
theorem absorbNeg_zero (minF : ℤ) (l : List (Node × ℤ)) :
    absorbNeg minF 0 l = .ok ([], 0, l) := by
  cases l with
  | nil => simp [absorbNeg]
  | cons q rest => obtain ⟨n, dem⟩ := q; simp [absorbNeg]

/-- The second absorption loop is a no-op when the total is already
zero. -/
theorem absorbPos_zero (minB : ℤ) (l : List (Node × ℤ)) :
    absorbPos minB 0 l = .ok ([], 0, l) := by
  cases l with
  | nil => simp [absorbPos]
  | cons q rest => obtain ⟨n, dem⟩ := q; simp [absorbPos]

/-- Balancing a zero total leaves the demand list unchanged. -/
theorem distributeExcess_zero (minB minF : ℤ) (l : List (Node × ℤ)) :
    distributeExcess minB minF 0 l = .ok l := by
  unfold distributeExcess
  rw [absorbNeg_zero]
  dsimp only
  rw [absorbPos_zero]
  simp

/-- distribute(0, 0) writes a zero demand on every station and balances
nothing. -/
theorem writeBikeDemands_zero (nodes : List Node) :
    writeBikeDemands 0 0 nodes = .ok (nodes.map (fun n => (n, (0 : ℤ)))) := by
  unfold writeBikeDemands
  rw [writeDemandsLoop_zero]
  dsimp only
  have hsum : ((nodes.map (fun n => (n, (0 : ℤ)))).map (·.2)).sum = 0 := by
    induction nodes with
    | nil => rfl
    | cons n rest ih => simpa using ih
  rw [hsum]
  exact distributeExcess_zero 0 0 _

/-- The zero integer cost, rescaled by _FLOAT_TO_INT_FACTOR and rounded
to three decimals, is zero. -/
theorem round3_zero_cost : round3 (((0 : ℤ) : ℚ) / floatToIntFactor) = 0 := by
  norm_num [round3, roundHalfEven, floatToIntFactor]

/-- Claim C7: on every graph, distribute(0, 0) reports no error and
returns total cost 0 together with a flow assignment that moves no
bikes, provided the external solver returns its basic solution (the
all-zero flow at cost 0) on an all-zero demand vector, as network
simplex does. -/
theorem distribute_zero_succeeds (solver : Solver) (dist : Node → Node → ℚ)
    (g : Graph)
    (hsolver : ∀ (arcs : List Edge) (demands : List (Node × ℤ)),
      (∀ q ∈ demands, q.2 = 0) → solver arcs demands = (0, zeroFlow arcs)) :
    distribute solver dist g 0 0
      = .ok (0, zeroFlow (toDirected (writeEdgeCosts dist g))) ∧
    ∀ q ∈ zeroFlow (toDirected (writeEdgeCosts dist g)), q.2.2 = (0 : ℤ) := by
  constructor
  · unfold distribute
    rw [if_neg (by norm_num), writeBikeDemands_zero]
    dsimp only
    rw [hsolver _ _ (by intro q hq; rcases List.mem_map.mp hq with ⟨n, _, rfl⟩; rfl)]
    dsimp only
    rw [round3_zero_cost]
  · intro q hq
    rcases List.mem_map.mp hq with ⟨e, _, rfl⟩
    rfl

/-- Claim C7, witness: on the concrete three-station graph with the
stub solver, distribute(0, 0) returns cost 0 and the all-zero flow. -/
theorem distribute_zero_succeeds_witness :
    distribute solverStub distQ gW 0 0
      = .ok (0, zeroFlow (toDirected (writeEdgeCosts distQ gW))) ∧
    ∀ q ∈ zeroFlow (toDirected (writeEdgeCosts distQ gW)), q.2.2 = (0 : ℤ) :=
  distribute_zero_succeeds solverStub distQ gW (fun _ _ _ => rfl)

/-- Claim C1: a successful distribute call returns the two-component
tuple (total rounded cost, flow dict) and nothing else; evaluated here
on a concrete two-station graph, the first component is the cost, not a
displaced-bike count, so the caller's three-way unpacking cannot
succeed. -/
theorem distribute_returns_cost_flow_pair :
    distribute solverStub distQ g2W 0 0 = .ok (0, [(st1, st2, 0), (st2, st1, 0)]) := by
  unfold distribute
  rw [if_neg (by norm_num), writeBikeDemands_zero]
  dsimp only [solverStub]
  rw [round3_zero_cost]
  rfl

/-- The distQ stand-in distance is symmetric, like the haversine
distance it models. -/
theorem distQ_symm (a b : Node) : distQ a b = distQ b a := by
  unfold distQ
  rw [abs_sub_comm a.lat b.lat, abs_sub_comm a.lon b.lon]

/-- add_edge with a guarded weight keeps every stored edge in shape:
a fresh edge carries the guarded weight, and an update rewrites the
weight of an edge with the same unordered endpoints. -/
theorem addEdgeE_edgeOk (dist : Node → Node → ℚ) (maxD : ℚ)
    (hsym : ∀ a b, dist a b = dist b a)
    (es : List Edge) (u v : Node) (w : ℚ)
    (hw : w = dist u v) (hw0 : 0 < w) (hwd : w ≤ maxD)
    (hall : ∀ e ∈ es, EdgeOk dist maxD e) :
    ∀ e ∈ addEdgeE es u v w, EdgeOk dist maxD e := by
  intro e he
  unfold addEdgeE at he
  split at he
  · rcases List.mem_map.mp he with ⟨e0, he0, rfl⟩
    by_cases hc : (e0.1 = u ∧ e0.2.1 = v) ∨ (e0.1 = v ∧ e0.2.1 = u)
    · rw [if_pos hc]
      refine ⟨?_, hw0, hwd⟩
      rcases hc with ⟨h1, h2⟩ | ⟨h1, h2⟩
      · rw [h1, h2, hw]
      · rw [h1, h2, hw, hsym]
    · rw [if_neg hc]
      exact hall e0 he0
  · rcases List.mem_append.mp he with he | he
    · exact hall e he
    · rw [List.mem_singleton.mp he]
      exact ⟨hw, hw0, hwd⟩

/-- A foldl over graph-updating steps preserves any edge invariant each
step preserves. -/
theorem foldl_edges_inv {α : Type} (P : Edge → Prop) (f : Graph → α → Graph)
    (hf : ∀ g a, (∀ e ∈ g.edges, P e) → ∀ e ∈ (f g a).edges, P e) :
    ∀ (l : List α) (g : Graph),
      (∀ e ∈ g.edges, P e) → ∀ e ∈ (l.foldl f g).edges, P e := by
  intro l
  induction l with
  | nil => intro g hg; simpa using hg
  | cons a rest ih =>
    intro g hg
    rw [List.foldl_cons]
    exact ih _ (hf g a hg)

/-- The pair loop only adds edges passing the 0 < distance <= threshold
guard, each stored with its exact distance. -/
theorem addPairs_edgeOk (dist : Node → Node → ℚ) (maxD : ℚ)
    (hsym : ∀ a b, dist a b = dist b a) (ps : List (Node × Node)) (g : Graph)
    (hg : ∀ e ∈ g.edges, EdgeOk dist maxD e) :
    ∀ e ∈ (addPairs dist maxD g ps).edges, EdgeOk dist maxD e := by
  refine foldl_edges_inv (EdgeOk dist maxD) _ ?_ ps g hg
  intro gacc p hacc e he
  dsimp only at he
  split at he
  · rename_i hguard
    exact addEdgeE_edgeOk dist maxD hsym gacc.edges p.1 p.2 _ rfl hguard.1 hguard.2 hacc e he
  · exact hacc e he

/-- Processing one grid cell preserves the edge shape invariant. -/
theorem processCell_edgeOk (dist : Node → Node → ℚ) (maxD : ℚ)
    (hsym : ∀ a b, dist a b = dist b a)
    (grid : List ((ℤ × ℤ) × List Node)) (idx : ℤ × ℤ) (g : Graph)
    (hg : ∀ e ∈ g.edges, EdgeOk dist maxD e) :
    ∀ e ∈ (processCell dist maxD grid idx g).edges, EdgeOk dist maxD e := by
  unfold processCell
  refine foldl_edges_inv (EdgeOk dist maxD) _ ?_ gridOffsets g hg
  intro gacc off hacc
  exact addPairs_edgeOk dist maxD hsym _ gacc hacc

/-- The whole grid pass preserves the edge shape invariant. -/
theorem addEdgesInGrid_edgeOk (dist : Node → Node → ℚ) (maxD : ℚ)
    (hsym : ∀ a b, dist a b = dist b a) :
    ∀ (ks : List (ℤ × ℤ)) (grid : List ((ℤ × ℤ) × List Node)) (g : Graph),
      (∀ e ∈ g.edges, EdgeOk dist maxD e) →
      ∀ e ∈ (addEdgesInGrid dist maxD ks grid g).edges, EdgeOk dist maxD e := by
  intro ks
  induction ks with
  | nil => intro grid g hg; simpa [addEdgesInGrid] using hg
  | cons idx ks ih =>
    intro grid g hg
    unfold addEdgesInGrid
    exact ih _ _ (processCell_edgeOk dist maxD hsym grid idx g hg)

/-- After construct_graph with a non-negative threshold, every stored
edge carries its endpoints' exact distance, strictly positive and at
most the threshold (the state after an internal raise is covered too:
its edge set is empty). -/
theorem construct_graph_edgeOk (sideLengths : ℚ → ℚ → ℚ × ℚ)
    (dist : Node → Node → ℚ) (g : Graph) (d : ℚ)
    (hsym : ∀ a b, dist a b = dist b a) (hd : 0 ≤ d) :
    ∀ e ∈ (postState (construct_graph sideLengths dist g d)).edges,
      EdgeOk dist d e := by
  unfold construct_graph
  rw [if_neg (not_lt.mpr hd)]
  dsimp only
  by_cases hpos : 0 < d
  · rw [if_pos hpos]
    split
    · intro e he
      simp [postState] at he
    · dsimp only [postState]
      exact addEdgesInGrid_edgeOk dist d hsym _ _ _ (by intro e he; simp at he)
  · rw [if_neg hpos]
    intro e he
    simp [postState] at he

/-- Claim C6: for every station set and every threshold d >= 0, after
construct_graph(d) every edge of the graph has weight at most d, and no
two stations whose distance exceeds d are connected by an edge. -/
theorem construct_graph_respects_threshold (sideLengths : ℚ → ℚ → ℚ × ℚ)
    (dist : Node → Node → ℚ) (g : Graph) (d : ℚ)
    (hsym : ∀ a b, dist a b = dist b a) (hd : 0 ≤ d) :
    (∀ e ∈ (postState (construct_graph sideLengths dist g d)).edges,
       e.2.2 ≤ d) ∧
    (∀ u v : Node, d < dist u v →
       edgeLookup (postState (construct_graph sideLengths dist g d)).edges u v
         = none) := by
  have hok := construct_graph_edgeOk sideLengths dist g d hsym hd
  constructor
  · intro e he
    exact (hok e he).2.2
  · intro u v huv
    cases hfind : (postState (construct_graph sideLengths dist g d)).edges.find?
        (fun e => (e.1 = u ∧ e.2.1 = v) ∨ (e.1 = v ∧ e.2.1 = u)) with
    | none =>
      unfold edgeLookup
      rw [hfind]
      rfl
    | some e =>
      exfalso
      have hmem := List.mem_of_find?_eq_some hfind
      have hpred := List.find?_some hfind
      have hEok := hok e hmem
      simp only [decide_eq_true_eq] at hpred
      rcases hpred with ⟨h1, h2⟩ | ⟨h1, h2⟩
      · have : e.2.2 = dist u v := by rw [hEok.1, h1, h2]
        exact absurd huv (not_lt.mpr (this ▸ hEok.2.2))
      · have : e.2.2 = dist u v := by rw [hEok.1, h1, h2, hsym]
        exact absurd huv (not_lt.mpr (this ▸ hEok.2.2))

/-- Claim C6, witness: instantiated on the specification's three-station
scenario at threshold 200 m with the concrete symmetric distance. -/
theorem construct_graph_respects_threshold_witness :
    (∀ e ∈ (postState (construct_graph sideLengthsW distQ gW 200)).edges,
       e.2.2 ≤ 200) ∧
    (∀ u v : Node, 200 < distQ u v →
       edgeLookup (postState (construct_graph sideLengthsW distQ gW 200)).edges u v
         = none) :=
  construct_graph_respects_threshold sideLengthsW distQ gW 200 distQ_symm
    (by norm_num)

/-- Looking up the unique stored edge returns its stored weight. -/
theorem edgeLookup_single (u v : Node) (w : ℚ) :
    edgeLookup [(u, v, w)] u v = some w := by
  unfold edgeLookup
  rw [List.find?_cons_of_pos]
  · rfl
  · exact decide_eq_true (Or.inl ⟨rfl, rfl⟩)

/-- The concrete distance between the first two test stations. -/
theorem distQ_st1_st2 : distQ st1 st2 = 55597/500 := by
  unfold distQ st1 st2
  dsimp only
  rw [sub_self, abs_zero, zero_sub, abs_neg,
    abs_of_nonneg (by norm_num : (0 : ℚ) ≤ 1/1000)]
  norm_num

/-- Claim C2, counterexample: on a graph holding one edge whose stored
weight is its creation-time distance 111.194 m, the _write_edge_costs
step of distribute overwrites that weight with the different value
int(1000 * 111.194) = 111194, so distribute does override a stored edge
weight. -/
theorem write_edge_costs_overrides_weight :
    edgeLookup (writeEdgeCosts distQ g2W).edges st1 st2 = some 111194 ∧
    edgeLookup g2W.edges st1 st2 = some (55597/500) ∧
    ((111194 : ℚ) ≠ 55597/500) := by
  refine ⟨?_, ?_, by norm_num⟩
  · have hmap : (writeEdgeCosts distQ g2W).edges
        = [(st1, st2, (pyInt (floatToIntFactor * distQ st1 st2) : ℚ))] := rfl
    rw [hmap, edgeLookup_single]
    rw [distQ_st1_st2]
    norm_num [pyInt, floatToIntFactor]
  · have hedges : g2W.edges = [(st1, st2, 55597/500)] := rfl
    rw [hedges, edgeLookup_single]

/-- Claim C2, amended: construct_graph stores every edge weight as the
distance between its endpoints at creation time, but distribute's
_write_edge_costs step does override every stored weight, replacing it
with the truncated integer of 1000 times the distance. -/
theorem edge_weights_creation_then_distribute_override
    (sideLengths : ℚ → ℚ → ℚ × ℚ) (dist : Node → Node → ℚ) (g gd : Graph)
    (d : ℚ) (hsym : ∀ a b, dist a b = dist b a) (hd : 0 ≤ d) :
    (∀ e ∈ (postState (construct_graph sideLengths dist g d)).edges,
       e.2.2 = dist e.1 e.2.1) ∧
    (∀ e ∈ (writeEdgeCosts dist gd).edges,
       e.2.2 = ((pyInt (floatToIntFactor * dist e.1 e.2.1)) : ℚ)) := by
  constructor
  · intro e he
    exact (construct_graph_edgeOk sideLengths dist g d hsym hd e he).1
  · intro e he
    rcases List.mem_map.mp he with ⟨e0, _, rfl⟩
    rfl

/-- Claim C2, amended, witness: instantiated on the concrete graphs with
the concrete symmetric distance at threshold 200. -/
theorem edge_weights_creation_then_distribute_override_witness :
    (∀ e ∈ (postState (construct_graph sideLengthsW distQ gW 200)).edges,
       e.2.2 = distQ e.1 e.2.1) ∧
    (∀ e ∈ (writeEdgeCosts distQ g2W).edges,
       e.2.2 = ((pyInt (floatToIntFactor * distQ e.1 e.2.1)) : ℚ)) :=
  edge_weights_creation_then_distribute_override sideLengthsW distQ gW g2W 200
    distQ_symm (by norm_num)

/-- A filter that accepts every element of a list leaves it unchanged. -/
theorem filter_all_true {α : Type} (p : α → Bool) :
    ∀ l : List α, (∀ a ∈ l, p a = true) → l.filter p = l := by
  intro l
  induction l with
  | nil => intro _; rfl
  | cons a rest ih =>
    intro h
    rw [List.filter_cons_of_pos (h a (List.mem_cons_self _ _)),
      ih (fun b hb => h b (List.mem_cons_of_mem _ hb))]

/-- A filter that rejects every element of a list empties it. -/
theorem filter_all_false {α : Type} (p : α → Bool) :
    ∀ l : List α, (∀ a ∈ l, p a = false) → l.filter p = [] := by
  intro l
  induction l with
  | nil => intro _; rfl
  | cons a rest ih =>
    intro h
    rw [List.filter_cons_of_neg (by rw [h a (List.mem_cons_self _ _)]; simp),
      ih (fun b hb => h b (List.mem_cons_of_mem _ hb))]

/-- A map that fixes every element of a list leaves it unchanged. -/
theorem map_id_of_mem {α : Type} (f : α → α) :
    ∀ l : List α, (∀ a ∈ l, f a = a) → l.map f = l := by
  intro l
  induction l with
  | nil => intro _; rfl
  | cons a rest ih =>
    intro h
    rw [List.map_cons, h a (List.mem_cons_self _ _),
      ih (fun b hb => h b (List.mem_cons_of_mem _ hb))]

/-- add_node is a no-op on an already present node. -/
theorem addNode_mem (g : Graph) (v : Node) (hv : v ∈ g.nodes) : addNode g v = g := by
  unfold addNode
  rw [if_pos hv]

/-- add_edge between stored nodes does not change the node list. -/
theorem addEdge_nodes (g : Graph) (u v : Node) (w : ℚ)
    (hu : u ∈ g.nodes) (hv : v ∈ g.nodes) : (addEdge g u v w).nodes = g.nodes := by
  show (addNode (addNode g u) v).nodes = g.nodes
  rw [addNode_mem g u hu, addNode_mem g v hv]

/-- add_edge from a virtual endpoint to any node touches only the added
part of the edge list: edges between stations are matched by neither
update pattern (both patterns require the virtual endpoint), so the
station edges pass through unchanged, and whatever is written is
incident to a virtual endpoint. -/
theorem addEdgeE_virtual_split (o d a x : Node) (w : ℚ) (base added : List Edge)
    (hbase : ∀ e ∈ base, (e.1 ≠ o ∧ e.2.1 ≠ o) ∧ (e.1 ≠ d ∧ e.2.1 ≠ d))
    (ha : a = o ∨ a = d)
    (hadded : ∀ e ∈ added, EdgeIncident o d e) :
    ∃ added', addEdgeE (base ++ added) a x w = base ++ added' ∧
      ∀ e ∈ added', EdgeIncident o d e := by
  have hbase_ne : ∀ e ∈ base, ¬((e.1 = a ∧ e.2.1 = x) ∨ (e.1 = x ∧ e.2.1 = a)) := by
    intro e he hc
    rcases hbase e he with ⟨⟨h1o, h2o⟩, h1d, h2d⟩
    rcases hc with ⟨h1, _⟩ | ⟨_, h2⟩
    · rcases ha with rfl | rfl
      · exact h1o h1
      · exact h1d h1
    · rcases ha with rfl | rfl
      · exact h2o h2
      · exact h2d h2
  unfold addEdgeE
  by_cases hb : hasEdgeB (base ++ added) a x = true
  · rw [if_pos hb]
    refine ⟨added.map (fun e =>
      if (e.1 = a ∧ e.2.1 = x) ∨ (e.1 = x ∧ e.2.1 = a) then (e.1, e.2.1, w) else e),
      ?_, ?_⟩
    · rw [List.map_append]
      congr 1
      apply map_id_of_mem
      intro e he
      rw [if_neg (hbase_ne e he)]
    · intro e he
      rcases List.mem_map.mp he with ⟨e0, he0, rfl⟩
      by_cases hc : (e0.1 = a ∧ e0.2.1 = x) ∨ (e0.1 = x ∧ e0.2.1 = a)
      · rw [if_pos hc]
        exact hadded e0 he0
      · rw [if_neg hc]
        exact hadded e0 he0
  · rw [if_neg hb]
    refine ⟨added ++ [(a, x, w)], by rw [List.append_assoc], ?_⟩
    intro e he
    rcases List.mem_append.mp he with he | he
    · exact hadded e he
    · rw [List.mem_singleton.mp he]
      rcases ha with rfl | rfl
      · exact Or.inl rfl
      · exact Or.inr (Or.inr (Or.inl rfl))

/-- The connect-everything loop of the route setup keeps the node list
fixed and only appends or rewrites edges incident to the virtual
endpoints. -/
theorem routeLoop_split (distf : Node → Node → ℚ) (o d : Node) (f : ℚ)
    (N : List Node) (base : List Edge)
    (hbase : ∀ e ∈ base, (e.1 ≠ o ∧ e.2.1 ≠ o) ∧ (e.1 ≠ d ∧ e.2.1 ≠ d))
    (hoN : o ∈ N) (hdN : d ∈ N) :
    ∀ (l : List Node) (gacc : Graph), (∀ x ∈ l, x ∈ N) → gacc.nodes = N →
      (∃ added, gacc.edges = base ++ added ∧ ∀ e ∈ added, EdgeIncident o d e) →
      (l.foldl (fun gacc node =>
          addEdge (addEdge gacc o node (distf o node * f))
            d node (distf d node * f)) gacc).nodes = N ∧
      ∃ added, (l.foldl (fun gacc node =>
          addEdge (addEdge gacc o node (distf o node * f))
            d node (distf d node * f)) gacc).edges = base ++ added ∧
        ∀ e ∈ added, EdgeIncident o d e := by
  intro l
  induction l with
  | nil =>
    intro gacc hl hn hsplit
    rw [List.foldl_nil]
    exact ⟨hn, hsplit⟩
  | cons x rest ih =>
    intro gacc hl hn hsplit
    rw [List.foldl_cons]
    have hxN : x ∈ N := hl x (List.mem_cons_self _ _)
    obtain ⟨added, hedges, hinc⟩ := hsplit
    have h1nodes : (addEdge gacc o x (distf o x * f)).nodes = N :=
      (addEdge_nodes gacc o x _ (by rw [hn]; exact hoN) (by rw [hn]; exact hxN)).trans hn
    have h2nodes : (addEdge (addEdge gacc o x (distf o x * f)) d x (distf d x * f)).nodes = N :=
      (addEdge_nodes _ d x _ (by rw [h1nodes]; exact hdN) (by rw [h1nodes]; exact hxN)).trans h1nodes
    obtain ⟨a1, he1, hi1⟩ :=
      addEdgeE_virtual_split o d o x (distf o x * f) base added hbase (Or.inl rfl) hinc
    have he1' : (addEdge gacc o x (distf o x * f)).edges = base ++ a1 := by
      show addEdgeE gacc.edges o x _ = base ++ a1
      rw [hedges]
      exact he1
    obtain ⟨a2, he2, hi2⟩ :=
      addEdgeE_virtual_split o d d x (distf d x * f) base a1 hbase (Or.inr rfl) hi1
    have he2' : (addEdge (addEdge gacc o x (distf o x * f)) d x (distf d x * f)).edges
        = base ++ a2 := by
      show addEdgeE (addEdge gacc o x (distf o x * f)).edges d x _ = base ++ a2
      rw [he1']
      exact he2
    exact ih _ (fun y hy => hl y (List.mem_cons_of_mem _ hy)) h2nodes ⟨a2, he2', hi2⟩

/-- RouteContextManager.__enter__ appends the two virtual nodes at the
end of the node list and changes the edge list only by a suffix of edges
incident to a virtual endpoint. -/
theorem routeSetupEnter_split (distf : Node → Node → ℚ) (g : Graph)
    (o d : Node) (f : ℚ)
    (hval : EdgesValid g) (ho : o ∉ g.nodes) (hd : d ∉ g.nodes) (hne : o ≠ d) :
    (routeSetupEnter distf g o d f).nodes = g.nodes ++ [o, d] ∧
    ∃ added, (routeSetupEnter distf g o d f).edges = g.edges ++ added ∧
      ∀ e ∈ added, EdgeIncident o d e := by
  have hbase : ∀ e ∈ g.edges, (e.1 ≠ o ∧ e.2.1 ≠ o) ∧ (e.1 ≠ d ∧ e.2.1 ≠ d) := by
    intro e he
    rcases hval e he with ⟨h1, h2⟩
    exact ⟨⟨fun hh => ho (hh ▸ h1), fun hh => ho (hh ▸ h2)⟩,
           fun hh => hd (hh ▸ h1), fun hh => hd (hh ▸ h2)⟩
  have hg1 : addNode (addNode g o) d
      = { g with nodes := g.nodes ++ [o, d] } := by
    have hin : addNode g o = { g with nodes := g.nodes ++ [o] } := by
      unfold addNode
      rw [if_neg ho]
    rw [hin]
    unfold addNode
    rw [if_neg (by
      intro hmem
      rcases List.mem_append.mp hmem with h | h
      · exact hd h
      · exact hne (List.mem_singleton.mp h).symm)]
    show Graph.mk ((g.nodes ++ [o]) ++ [d]) g.edges g.distAttr = _
    rw [List.append_assoc]
    rfl
  unfold routeSetupEnter
  dsimp only
  rw [hg1]
  have hg2nodes : (addEdge { g with nodes := g.nodes ++ [o, d] } o d
      (distf o d * f)).nodes = g.nodes ++ [o, d] :=
    addEdge_nodes _ o d _ (by simp) (by simp)
  obtain ⟨a0, he0, hi0⟩ :=
    addEdgeE_virtual_split o d o d (distf o d * f) g.edges [] hbase (Or.inl rfl)
      (by intro e he; simp at he)
  rw [List.append_nil] at he0
  have hg2edges : (addEdge { g with nodes := g.nodes ++ [o, d] } o d
      (distf o d * f)).edges = g.edges ++ a0 := he0
  exact routeLoop_split distf o d f (g.nodes ++ [o, d]) g.edges hbase
    (by simp) (by simp) _ _
    (by rw [hg2nodes]; exact fun x hx => hx) hg2nodes ⟨a0, hg2edges, hi0⟩

/-- RouteContextManager.__exit__ removes exactly the augmentation: the
two virtual nodes disappear from the node list and every edge incident
to them is dropped, leaving the original edges in order. -/
theorem routeSetupExit_restores (g' : Graph) (o d : Node) (N : List Node)
    (base added : List Edge)
    (hnodes : g'.nodes = N ++ [o, d]) (hedges : g'.edges = base ++ added)
    (hoN : o ∉ N) (hdN : d ∉ N) (hne : o ≠ d)
    (hbase : ∀ e ∈ base, (e.1 ≠ o ∧ e.2.1 ≠ o) ∧ (e.1 ≠ d ∧ e.2.1 ≠ d))
    (hadded : ∀ e ∈ added, EdgeIncident o d e) :
    (routeSetupExit g' o d).nodes = N ∧ (routeSetupExit g' o d).edges = base := by
  unfold routeSetupExit removeNode
  dsimp only
  constructor
  · rw [hnodes, List.filter_append, List.filter_append]
    have hN1 : N.filter (fun x => x ≠ o) = N :=
      filter_all_true _ N (fun a ha => decide_eq_true (fun hh => hoN (hh ▸ ha)))
    have hod : ([o, d].filter (fun x => x ≠ o)) = [d] := by
      rw [List.filter_cons_of_neg (by simp)]
      apply filter_all_true
      intro a ha
      rw [List.mem_singleton.mp ha]
      exact decide_eq_true (Ne.symm hne)
    rw [hN1, hod]
    have hN2 : N.filter (fun x => x ≠ d) = N :=
      filter_all_true _ N (fun a ha => decide_eq_true (fun hh => hdN (hh ▸ ha)))
    have hdd : ([d].filter (fun x => x ≠ d)) = [] := by
      apply filter_all_false
      intro a ha
      rw [List.mem_singleton.mp ha]
      simp
    rw [hN2, hdd, List.append_nil]
  · rw [hedges, List.filter_append, List.filter_append]
    have hb1 : base.filter (fun e => e.1 ≠ o ∧ e.2.1 ≠ o) = base :=
      filter_all_true _ base
        (fun e he => decide_eq_true ⟨(hbase e he).1.1, (hbase e he).1.2⟩)
    have hb2 : base.filter (fun e => e.1 ≠ d ∧ e.2.1 ≠ d) = base :=
      filter_all_true _ base
        (fun e he => decide_eq_true ⟨(hbase e he).2.1, (hbase e he).2.2⟩)
    have ha2 : ((added.filter (fun e => e.1 ≠ o ∧ e.2.1 ≠ o)).filter
        (fun e => e.1 ≠ d ∧ e.2.1 ≠ d)) = [] := by
      apply filter_all_false
      intro e he
      rcases List.mem_filter.mp he with ⟨hmem, hp1⟩
      have hp1' := of_decide_eq_true hp1
      rcases hadded e hmem with h | h | h | h
      · exact absurd h hp1'.1
      · exact absurd h hp1'.2
      · exact decide_eq_false (fun hc => hc.1 h)
      · exact decide_eq_false (fun hc => hc.2 h)
    rw [hb1, hb2, ha2, List.append_nil]

/-- Claim C3: on every exit path of route, normal return or an exception
from the shortest-path search, the two virtual nodes and all their incident
edges are removed, so after the call the graph has exactly its pre-call
node list and edge list. -/
theorem route_restores_graph (search : Search) (distf : Node → Node → ℚ)
    (g : Graph) (o dd : Node) (wsp bsp : ℚ)
    (hval : EdgesValid g) (ho : o ∉ g.nodes) (hd : dd ∉ g.nodes) (hne : o ≠ dd) :
    (route search distf g o dd wsp bsp).1.nodes = g.nodes ∧
    (route search distf g o dd wsp bsp).1.edges = g.edges := by
  have hbase : ∀ e ∈ g.edges, (e.1 ≠ o ∧ e.2.1 ≠ o) ∧ (e.1 ≠ dd ∧ e.2.1 ≠ dd) := by
    intro e he
    rcases hval e he with ⟨h1, h2⟩
    exact ⟨⟨fun hh => ho (hh ▸ h1), fun hh => ho (hh ▸ h2)⟩,
           fun hh => hd (hh ▸ h1), fun hh => hd (hh ▸ h2)⟩
  obtain ⟨hn, added, he, hi⟩ :=
    routeSetupEnter_split distf g o dd (bsp / wsp) hval ho hd hne
  have hexit := routeSetupExit_restores
    (routeSetupEnter distf g o dd (bsp / wsp)) o dd g.nodes g.edges added
    hn he ho hd hne hbase hi
  unfold route
  dsimp only
  cases hs : search (routeSetupEnter distf g o dd (bsp / wsp)) o dd with
  | error e => exact hexit
  | ok r =>
    obtain ⟨td, path⟩ := r
    exact hexit

/-- Claim C3, witness: on the concrete two-station graph with fresh
virtual endpoints and the concrete search, route hands back the original
node and edge lists. -/
theorem route_restores_graph_witness :
    (route searchDirect distQ g2W oW dW (10/9) (25/9)).1.nodes = g2W.nodes ∧
    (route searchDirect distQ g2W oW dW (10/9) (25/9)).1.edges = g2W.edges :=
  route_restores_graph searchDirect distQ g2W oW dW (10/9) (25/9)
    (by
      intro e he
      rw [List.mem_singleton.mp he]
      exact ⟨List.mem_cons_self _ _, List.mem_cons_of_mem _ (List.mem_singleton_self _)⟩)
    (by decide) (by decide) (by decide)

/-- add_edge leaves the undirected edge it was given present: an update
keeps the endpoints, an insert appends the edge. -/
theorem hasEdgeB_addEdgeE_self (es : List Edge) (u v : Node) (w : ℚ) :
    hasEdgeB (addEdgeE es u v w) u v = true := by
  unfold addEdgeE
  by_cases hb : hasEdgeB es u v = true
  · rw [if_pos hb]
    unfold hasEdgeB at hb ⊢
    rcases List.any_eq_true.mp hb with ⟨e, he, hpe⟩
    apply List.any_eq_true.mpr
    have hp := of_decide_eq_true hpe
    refine ⟨(e.1, e.2.1, w), ?_, decide_eq_true hp⟩
    apply List.mem_map.mpr
    exact ⟨e, he, by rw [if_pos hp]⟩
  · rw [if_neg hb]
    unfold hasEdgeB
    apply List.any_eq_true.mpr
    exact ⟨(u, v, w), List.mem_append_right _ (List.mem_singleton_self _),
      decide_eq_true (Or.inl ⟨rfl, rfl⟩)⟩

/-- add_edge never removes an undirected edge: updates keep endpoints
and inserts only append. -/
theorem hasEdgeB_addEdgeE_mono (es : List Edge) (u v a x : Node) (w : ℚ)
    (h : hasEdgeB es u v = true) : hasEdgeB (addEdgeE es a x w) u v = true := by
  unfold addEdgeE
  by_cases hb : hasEdgeB es a x = true
  · rw [if_pos hb]
    unfold hasEdgeB at h ⊢
    rcases List.any_eq_true.mp h with ⟨e, he, hpe⟩
    have hp := of_decide_eq_true hpe
    apply List.any_eq_true.mpr
    by_cases hc : (e.1 = a ∧ e.2.1 = x) ∨ (e.1 = x ∧ e.2.1 = a)
    · exact ⟨(e.1, e.2.1, w), List.mem_map.mpr ⟨e, he, by rw [if_pos hc]⟩,
        decide_eq_true hp⟩
    · exact ⟨e, List.mem_map.mpr ⟨e, he, by rw [if_neg hc]⟩, decide_eq_true hp⟩
  · rw [if_neg hb]
    unfold hasEdgeB at h ⊢
    rcases List.any_eq_true.mp h with ⟨e, he, hpe⟩
    exact List.any_eq_true.mpr ⟨e, List.mem_append_left _ he, hpe⟩

/-- A present undirected edge makes the attribute lookup succeed. -/
theorem edgeLookup_isSome_of_hasEdgeB (es : List Edge) (u v : Node)
    (h : hasEdgeB es u v = true) : (edgeLookup es u v).isSome = true := by
  unfold hasEdgeB at h
  rcases List.any_eq_true.mp h with ⟨e, he, hpe⟩
  unfold edgeLookup
  cases hf : es.find? (fun e => (e.1 = u ∧ e.2.1 = v) ∨ (e.1 = v ∧ e.2.1 = u)) with
  | none =>
    exact absurd hpe (by simpa using List.find?_eq_none.mp hf e he)
  | some e0 => rfl

/-- A foldl of edge-adding steps preserves presence of an undirected
edge. -/
theorem foldl_hasEdgeB {α : Type} (f : Graph → α → Graph) (u v : Node)
    (hf : ∀ g a, hasEdgeB g.edges u v = true → hasEdgeB (f g a).edges u v = true) :
    ∀ (l : List α) (g : Graph),
      hasEdgeB g.edges u v = true → hasEdgeB ((l.foldl f g).edges) u v = true := by
  intro l
  induction l with
  | nil => intro g hg; simpa using hg
  | cons a rest ih =>
    intro g hg
    rw [List.foldl_cons]
    exact ih _ (hf g a hg)

/-- The route setup always installs the direct origin-destination
walking edge, and no later step of the setup removes it. -/
theorem routeSetupEnter_hasEdge (distf : Node → Node → ℚ) (g : Graph)
    (o d : Node) (f : ℚ) :
    hasEdgeB (routeSetupEnter distf g o d f).edges o d = true := by
  unfold routeSetupEnter
  dsimp only
  apply foldl_hasEdgeB
  · intro gacc x hg
    exact hasEdgeB_addEdgeE_mono _ _ _ _ _ _ (hasEdgeB_addEdgeE_mono _ _ _ _ _ _ hg)
  · exact hasEdgeB_addEdgeE_self _ _ _ _

/-- Claim C4, counterexample: on the graph with no station nodes, route
does not report unreachability; it succeeds, returning the pure-walking
path from origin to destination and its walking duration (the search is
instantiated with the behaviour of Dijkstra on the augmented node-less
graph, whose only simple origin-destination route is the direct walking
edge). -/
theorem route_empty_graph_succeeds :
    (route searchDirect distQ emptyG oW dW (10/9) (25/9)).2
      = .ok (⟨[oW, dW], [(oW, dW)]⟩, distQ oW dW * ((25/9) / (10/9)) / (25/9)) := by
  rfl

/-- Claim C4, amended: a failure of the shortest-path search would
propagate to the caller unchanged, but the augmentation always installs
a direct origin-destination walking edge, so origin and destination are
always connected in the augmented graph and route succeeds whenever the
search succeeds on connected endpoints; in particular route on a graph
with no station nodes returns the pure-walking route instead of an
unreachability failure. -/
theorem route_always_connects (search : Search) (distf : Node → Node → ℚ)
    (g : Graph) (o dd : Node) (wsp bsp : ℚ)
    (hsearch : ∀ g' : Graph,
      (edgeLookup g'.edges o dd).isSome = true → (search g' o dd).isOk = true) :
    ((route search distf g o dd wsp bsp).2).isOk = true ∧
    hasEdgeB (routeSetupEnter distf g o dd (bsp / wsp)).edges o dd = true := by
  have hhas := routeSetupEnter_hasEdge distf g o dd (bsp / wsp)
  have hok := hsearch _ (edgeLookup_isSome_of_hasEdgeB _ _ _ hhas)
  refine ⟨?_, hhas⟩
  unfold route
  dsimp only
  cases hs : search (routeSetupEnter distf g o dd (bsp / wsp)) o dd with
  | error e =>
    rw [hs] at hok
    exact absurd hok (by simp [Except.isOk, Except.toBool])
  | ok r =>
    obtain ⟨td, path⟩ := r
    rfl

/-- Claim C4, amended, witness: on the node-less graph with the concrete
search, route succeeds and the direct walking edge is present in the
augmented graph. -/
theorem route_always_connects_witness :
    ((route searchDirect distQ emptyG oW dW (10/9) (25/9)).2).isOk = true ∧
    hasEdgeB (routeSetupEnter distQ emptyG oW dW ((25/9) / (10/9))).edges oW dW
      = true :=
  route_always_connects searchDirect distQ emptyG oW dW (10/9) (25/9)
    (by
      intro g' h
      unfold searchDirect
      cases he : edgeLookup g'.edges oW dW with
      | none => rw [he] at h; exact absurd h (by simp)
      | some w => rfl)

/-- Containment of every grid cell in a node set. -/
def GridSub (ns : List Node) (grid : List ((ℤ × ℤ) × List Node)) : Prop :=
  ∀ kc ∈ grid, ∀ x ∈ kc.2, x ∈ ns

/-- Inserting a stored node into the grid keeps all cells inside the
node set. -/
theorem gridInsert_sub (ns : List Node) (key : ℤ × ℤ) (n : Node) (hn : n ∈ ns) :
    ∀ grid, GridSub ns grid → GridSub ns (gridInsert grid key n) := by
  intro grid
  induction grid with
  | nil =>
    intro _ kc hkc x hx
    rcases List.mem_singleton.mp hkc with rfl
    rcases List.mem_singleton.mp hx with rfl
    exact hn
  | cons kc0 rest ih =>
    intro hg kc hkc x hx
    obtain ⟨k0, c0⟩ := kc0
    unfold gridInsert at hkc
    split at hkc
    · rcases List.mem_cons.mp hkc with rfl | hkc
      · rcases List.mem_append.mp hx with hx | hx
        · exact hg (k0, c0) (List.mem_cons_self _ _) x hx
        · rw [List.mem_singleton.mp hx]
          exact hn
      · exact hg kc (List.mem_cons_of_mem _ hkc) x hx
    · rcases List.mem_cons.mp hkc with rfl | hkc
      · exact hg (k0, c0) (List.mem_cons_self _ _) x hx
      · exact ih (fun kc' hkc' => hg kc' (List.mem_cons_of_mem _ hkc')) kc hkc x hx

/-- Every cell of the built grid contains only graph nodes. -/
theorem buildGrid_sub (ns : List Node) (minLat minLon dlat dlon : ℚ) :
    ∀ (l : List Node) (grid : List ((ℤ × ℤ) × List Node)),
      (∀ n ∈ l, n ∈ ns) → GridSub ns grid →
      GridSub ns (l.foldl (fun grid n =>
        gridInsert grid (pyInt ((n.lat - minLat) / dlat),
          pyInt ((n.lon - minLon) / dlon)) n) grid) := by
  intro l
  induction l with
  | nil => intro grid _ hg; simpa using hg
  | cons n rest ih =>
    intro grid hl hg
    rw [List.foldl_cons]
    exact ih _ (fun m hm => hl m (List.mem_cons_of_mem _ hm))
      (gridInsert_sub ns _ n (hl n (List.mem_cons_self _ _)) grid hg)

/-- Reading a cell out of a contained grid yields graph nodes. -/
theorem gridGet_sub (ns : List Node) (grid : List ((ℤ × ℤ) × List Node))
    (hg : GridSub ns grid) (k : ℤ × ℤ) : ∀ x ∈ gridGet grid k, x ∈ ns := by
  intro x hx
  unfold gridGet at hx
  cases hf : grid.find? (fun kc => kc.1 = k) with
  | none => rw [hf] at hx; simp at hx
  | some kc =>
    rw [hf] at hx
    exact hg kc (List.mem_of_find?_eq_some hf) x hx

/-- Clearing a cell keeps the grid contained. -/
theorem gridClear_sub (ns : List Node) (grid : List ((ℤ × ℤ) × List Node))
    (hg : GridSub ns grid) (k : ℤ × ℤ) : GridSub ns (gridClear grid k) := by
  intro kc hkc x hx
  rcases List.mem_map.mp hkc with ⟨kc0, hkc0, rfl⟩
  by_cases hc : kc0.1 = k
  · rw [if_pos hc] at hx
    simp at hx
  · rw [if_neg hc] at hx
    exact hg kc0 hkc0 x hx

/-- Both members of a combinations pair come from the cell. -/
theorem mem_combinations2 :
    ∀ (c : List Node) (p : Node × Node),
      p ∈ combinations2 c → p.1 ∈ c ∧ p.2 ∈ c := by
  intro c
  induction c with
  | nil => intro p hp; simp [combinations2] at hp
  | cons a rest ih =>
    intro p hp
    unfold combinations2 at hp
    rcases List.mem_append.mp hp with hp | hp
    · rcases List.mem_map.mp hp with ⟨b, hb, rfl⟩
      exact ⟨List.mem_cons_self _ _, List.mem_cons_of_mem _ hb⟩
    · rcases ih p hp with ⟨h1, h2⟩
      exact ⟨List.mem_cons_of_mem _ h1, List.mem_cons_of_mem _ h2⟩

/-- Both members of a product pair come from their cells. -/
theorem mem_productPairs (c1 c2 : List Node) (p : Node × Node)
    (hp : p ∈ productPairs c1 c2) : p.1 ∈ c1 ∧ p.2 ∈ c2 := by
  unfold productPairs at hp
  rcases List.mem_flatten.mp hp with ⟨row, hrow, hpin⟩
  rcases List.mem_map.mp hrow with ⟨a, ha, rfl⟩
  rcases List.mem_map.mp hpin with ⟨b, hb, rfl⟩
  exact ⟨ha, hb⟩

/-- The pair loop keeps the node list fixed when all pair members are
stored nodes. -/
theorem addPairs_nodes (dist : Node → Node → ℚ) (maxD : ℚ) (ns : List Node) :
    ∀ (ps : List (Node × Node)) (g : Graph), g.nodes = ns →
      (∀ p ∈ ps, p.1 ∈ ns ∧ p.2 ∈ ns) → (addPairs dist maxD g ps).nodes = ns := by
  intro ps
  induction ps with
  | nil => intro g hn _; simpa [addPairs] using hn
  | cons p rest ih =>
    intro g hn hl
    unfold addPairs
    rw [List.foldl_cons]
    have hstep : (if 0 < dist p.1 p.2 ∧ dist p.1 p.2 ≤ maxD
        then addEdge g p.1 p.2 (dist p.1 p.2) else g).nodes = ns := by
      split
      · rw [addEdge_nodes g p.1 p.2 _
          (by rw [hn]; exact (hl p (List.mem_cons_self _ _)).1)
          (by rw [hn]; exact (hl p (List.mem_cons_self _ _)).2)]
        exact hn
      · exact hn
    exact ih _ hstep (fun q hq => hl q (List.mem_cons_of_mem _ hq))

/-- Processing one cell keeps the node list fixed. -/
theorem processCell_nodes (dist : Node → Node → ℚ) (maxD : ℚ) (ns : List Node)
    (grid : List ((ℤ × ℤ) × List Node)) (idx : ℤ × ℤ)
    (hg : GridSub ns grid) :
    ∀ (offs : List (ℤ × ℤ)) (g : Graph), g.nodes = ns →
      (offs.foldl (fun gacc off =>
        addPairs dist maxD gacc
          (if off = (0, 0) then combinations2 (gridGet grid idx)
           else productPairs (gridGet grid idx)
             (gridGet grid (idx.1 + off.1, idx.2 + off.2)))) g).nodes = ns := by
  intro offs
  induction offs with
  | nil => intro g hn; simpa using hn
  | cons off rest ih =>
    intro g hn
    rw [List.foldl_cons]
    apply ih
    apply addPairs_nodes dist maxD ns _ g hn
    intro p hp
    split at hp
    · rcases mem_combinations2 _ p hp with ⟨h1, h2⟩
      exact ⟨gridGet_sub ns grid hg idx p.1 h1, gridGet_sub ns grid hg idx p.2 h2⟩
    · rcases mem_productPairs _ _ p hp with ⟨h1, h2⟩
      exact ⟨gridGet_sub ns grid hg idx p.1 h1, gridGet_sub ns grid hg _ p.2 h2⟩

/-- The whole grid pass keeps the node list fixed. -/
theorem addEdgesInGrid_nodes (dist : Node → Node → ℚ) (maxD : ℚ) (ns : List Node) :
    ∀ (ks : List (ℤ × ℤ)) (grid : List ((ℤ × ℤ) × List Node)) (g : Graph),
      GridSub ns grid → g.nodes = ns →
      (addEdgesInGrid dist maxD ks grid g).nodes = ns := by
  intro ks
  induction ks with
  | nil => intro grid g _ hn; simpa [addEdgesInGrid] using hn
  | cons idx ks ih =>
    intro grid g hg hn
    unfold addEdgesInGrid
    exact ih _ _ (gridClear_sub ns grid hg idx)
      (processCell_nodes dist maxD ns grid idx hg gridOffsets g hn)

/-- The edge list the pair loop produces depends only on the incoming
edge list, not on the rest of the graph state. -/
theorem addPairs_edges_congr (dist : Node → Node → ℚ) (maxD : ℚ) :
    ∀ (ps : List (Node × Node)) (g g' : Graph), g.edges = g'.edges →
      (addPairs dist maxD g ps).edges = (addPairs dist maxD g' ps).edges := by
  intro ps
  induction ps with
  | nil => intro g g' he; simpa [addPairs] using he
  | cons p rest ih =>
    intro g g' he
    unfold addPairs
    rw [List.foldl_cons, List.foldl_cons]
    apply ih
    dsimp only
    split
    · show addEdgeE g.edges p.1 p.2 _ = addEdgeE g'.edges p.1 p.2 _
      rw [he]
    · exact he

/-- The edge list produced by one cell depends only on the incoming edge
list. -/
theorem processCell_edges_congr (dist : Node → Node → ℚ) (maxD : ℚ)
    (grid : List ((ℤ × ℤ) × List Node)) (idx : ℤ × ℤ) :
    ∀ (offs : List (ℤ × ℤ)) (g g' : Graph), g.edges = g'.edges →
      (offs.foldl (fun gacc off =>
        addPairs dist maxD gacc
          (if off = (0, 0) then combinations2 (gridGet grid idx)
           else productPairs (gridGet grid idx)
             (gridGet grid (idx.1 + off.1, idx.2 + off.2)))) g).edges
      = (offs.foldl (fun gacc off =>
        addPairs dist maxD gacc
          (if off = (0, 0) then combinations2 (gridGet grid idx)
           else productPairs (gridGet grid idx)
             (gridGet grid (idx.1 + off.1, idx.2 + off.2)))) g').edges := by
  intro offs
  induction offs with
  | nil => intro g g' he; simpa using he
  | cons off rest ih =>
    intro g g' he
    rw [List.foldl_cons, List.foldl_cons]
    exact ih _ _ (addPairs_edges_congr dist maxD _ g g' he)

/-- The edge list of the whole grid pass depends only on the incoming
edge list. -/
theorem addEdgesInGrid_edges_congr (dist : Node → Node → ℚ) (maxD : ℚ) :
    ∀ (ks : List (ℤ × ℤ)) (grid : List ((ℤ × ℤ) × List Node)) (g g' : Graph),
      g.edges = g'.edges →
      (addEdgesInGrid dist maxD ks grid g).edges
        = (addEdgesInGrid dist maxD ks grid g').edges := by
  intro ks
  induction ks with
  | nil => intro grid g g' he; simpa [addEdgesInGrid] using he
  | cons idx ks ih =>
    intro grid g g' he
    unfold addEdgesInGrid
    exact ih _ _ _ (processCell_edges_congr dist maxD grid idx gridOffsets g g' he)

/-- construct_graph never changes the node list (also on the internal
raise carried by the error branch). -/
theorem construct_graph_nodes (sideLengths : ℚ → ℚ → ℚ × ℚ)
    (dist : Node → Node → ℚ) (g : Graph) (d : ℚ) (hd : 0 ≤ d) :
    (postState (construct_graph sideLengths dist g d)).nodes = g.nodes := by
  unfold construct_graph
  rw [if_neg (not_lt.mpr hd)]
  dsimp only
  by_cases hpos : 0 < d
  · rw [if_pos hpos]
    cases hn : g.nodes with
    | nil => simp [postState]
    | cons n0 rest =>
      dsimp only [postState]
      exact addEdgesInGrid_nodes dist d (n0 :: rest) _ _ _
        (buildGrid_sub (n0 :: rest) _ _ _ _ (n0 :: rest) []
          (fun n hn => hn) (by intro kc hkc; simp at hkc))
        rfl
  · rw [if_neg hpos]
    rfl

/-- The edge set construct_graph builds is a function of the node list
and the threshold alone: the previous edges are cleared first and the
grid is rebuilt from the nodes. -/
theorem construct_graph_edges_fun (sideLengths : ℚ → ℚ → ℚ × ℚ)
    (dist : Node → Node → ℚ) (g g' : Graph) (d : ℚ)
    (hnodes : g.nodes = g'.nodes) (hd : 0 ≤ d) :
    (postState (construct_graph sideLengths dist g d)).edges
      = (postState (construct_graph sideLengths dist g' d)).edges := by
  unfold construct_graph
  rw [if_neg (not_lt.mpr hd), if_neg (not_lt.mpr hd)]
  dsimp only
  rw [← hnodes]
  by_cases hpos : 0 < d
  · rw [if_pos hpos, if_pos hpos]
    cases hn : g.nodes with
    | nil => simp [postState]
    | cons n0 rest =>
      dsimp only [postState]
      exact addEdgesInGrid_edges_congr dist d _ _ _ _ rfl
  · rw [if_neg hpos, if_neg hpos]

/-- Claim C9: construct_graph is idempotent: for every station set and
threshold d >= 0, running it a second time on the resulting state leaves
the edge set of the graph exactly as after the first run. -/
theorem construct_graph_idempotent (sideLengths : ℚ → ℚ → ℚ × ℚ)
    (dist : Node → Node → ℚ) (g : Graph) (d : ℚ) (hd : 0 ≤ d) :
    (postState (construct_graph sideLengths dist
        (postState (construct_graph sideLengths dist g d)) d)).edges
      = (postState (construct_graph sideLengths dist g d)).edges :=
  construct_graph_edges_fun sideLengths dist _ g d
    (construct_graph_nodes sideLengths dist g d hd) hd

/-- Claim C9, witness: idempotence instantiated on the concrete
three-station scenario at threshold 200. -/
theorem construct_graph_idempotent_witness :
    (postState (construct_graph sideLengthsW distQ
        (postState (construct_graph sideLengthsW distQ gW 200)) 200)).edges
      = (postState (construct_graph sideLengthsW distQ gW 200)).edges :=
  construct_graph_idempotent sideLengthsW distQ gW 200 (by norm_num)
